import Mathlib

/-!
Verification of the exr-wrapper core (src/wrapper.py): channel grouping and
subimage splitting (`split_subimages`), metadata filtering (`update_specs`),
region selection, and the multi-part write protocol of `rewrap`.

Python integers are arbitrary precision, so counters are modelled as `Nat`
and pixel coordinates as `Int`; on every state reachable from the real entry
point the `Nat` subtractions below agree with the Python arithmetic (the
relevant bounds are proved as invariants). Pixel values are modelled as
`Int`, since zero versus non-zero is all the modelled code observes. The
OpenImageIO codec is an external collaborator: its writer entry points are
modelled as an oracle of call results, and `ImageBufAlgo.nonzero_region` is
modelled from the spec (see its doc comment).
-/

namespace ExrWrapper

/-- Python list slicing `l[a:b]` for `0 ≤ a ≤ b`, the only shape the modelled
code reaches (bounds are established as loop invariants). -/
def pySlice (l : List α) (a b : Nat) : List α := (l.drop a).take (b - a)

/-- Substring test on character lists: some suffix of `l` starts with `pat`.
This models the Python substring membership test `pat in s`. -/
def containsSub (pat : List Char) : List Char → Bool
  | [] => pat.isPrefixOf []
  | c :: t => pat.isPrefixOf (c :: t) || containsSub pat t

/-- Python `pat in s` on strings. -/
def strContains (s pat : String) : Bool := containsSub pat.toList s.toList

/-- Python `s.strip(q)` where the strip set is the single quote character:
remove leading and trailing quote characters (used on the compression
option, line 168 and line 221). -/
def stripQuotes (s : String) : String :=
  String.mk (((s.toList.dropWhile fun c => c = Char.ofNat 39).reverse.dropWhile
    fun c => c = Char.ofNat 39).reverse)

/-- Axis-aligned region (an OpenImageIO ROI): begin inclusive, end
exclusive, plus a channel range. -/
structure Region where
  xbegin : Int
  xend : Int
  ybegin : Int
  yend : Int
  chbegin : Nat
  chend : Nat
deriving Repr, DecidableEq, Inhabited

/-- One extra metadata attribute of an image spec. The field `deletable`
records whether the external `erase_attribute` call supports the attribute
type (the source catches a `TypeError` from that call, line 218). -/
structure Attrib where
  name : String
  type : String
  value : String
  deletable : Bool
deriving Repr, DecidableEq, Inhabited

/-- The part of an OpenImageIO ImageSpec that the modelled code reads or
writes. `compression` and `name` stand for the attributes of those names. -/
structure SpecS where
  width : Nat
  height : Nat
  depth : Nat
  nchannels : Nat
  format : String
  channelformats : List String
  channelnames : List String
  extra_attribs : List Attrib
  compression : String
  name : String
  roi : Region
  full_width : Nat
  full_height : Nat
  full_x : Int
  full_y : Int
  full_z : Int
deriving Repr, DecidableEq, Inhabited

/-- An ImageBuf: its native spec plus pixel data, `pixel c x y` being the
value of channel `c` at position `(x, y)`. -/
structure ImageBuf where
  spec : SpecS
  pixel : Nat → Int → Int → Int

instance : Inhabited ImageBuf := ⟨{ spec := default, pixel := fun _ _ _ => 0 }⟩

/-- Result of `ImageBufAlgo.channels` followed by `ImageBufAlgo.cut` (lines
185 to 186 and line 252): the extracted channel subset, identified by the
original source channel names, and the cut region. -/
structure PixelBuf where
  channels : List String
  roi : Region
deriving Repr, DecidableEq, Inhabited

/-- The per-call options of `rewrap` (its keyword parameters, line 198). -/
structure Options where
  autocrop : Bool
  multipart : Bool
  rm_manifest : Bool
  fix_channels : Bool
  compression : Option String
  verbose : Bool
deriving Repr, DecidableEq, Inhabited

/-- Split a character list at every occurrence of the separator: the
splitting of Python `str.split` with a one-character separator, written with
structural recursion (the builtin `String.splitOn` is defined by
well-founded recursion and does not evaluate inside the kernel). -/
def splitChars (sep : Char) : List Char → List (List Char)
  | [] => [[]]
  | c :: t =>
    if c = sep then [] :: splitChars sep t
    else
      match splitChars sep t with
      | [] => [[c]]
      | r :: rs => (c :: r) :: rs

/-- Python `s.split(".")`; the result is never empty. -/
def splitDot (s : String) : List String :=
  (splitChars (Char.ofNat 46) s.toList).map String.mk

/-- Lines 126 to 129: the group key of one channel name. Channels named
exactly R, G, B or A key to "rgba"; any other name keys to the part before
the first dot (`split` on a nonempty separator never returns an empty list,
so the default of `headD` is never used). -/
def current_sub (channel_name : String) : String :=
  if channel_name ∈ ["R", "G", "B", "A"] then "rgba"
  else (splitDot channel_name).headD ""

/-- Lines 156 to 166: copy the source extra attributes onto the first
subimage spec, skipping attributes whose name contains "manifest" when
`rm_manifest` is set. Both `attribute` call forms of the source copy name,
type and value verbatim. -/
def copy_metadata (rm_manifest : Bool) : List Attrib → List Attrib
  | [] => []
  | a :: rest =>
    if rm_manifest ∧ strContains a.name "manifest" then copy_metadata rm_manifest rest
    else a :: copy_metadata rm_manifest rest

/-- Lines 174 to 178: the channel-name fix applied when building the output
channel list of a subimage. -/
def fix_channel (channel_name : String) : String :=
  if strContains channel_name "depth.z" then "depth.Z" else channel_name

/-- Lines 142 to 182: build the ImageSpec of one subimage. `nspec` is the
source image native spec, `roi` the shared region object (its channel end
was already set to 4 by line 123), `recent` the group key recorded for the
subimage, and the channel range starts at `sub_start` with `sub_ch_count`
channels. `dst_channel_names` is the output channel list of lines 171 to
181. Index `sub_start` into `channelformats` is in range whenever that list
is nonempty with one entry per source channel, so `getD` models the Python
indexing. -/
def make_subimage_spec (nspec : SpecS) (opts : Options) (roi : Region)
    (recent : String) (sub_start : Nat) (sub_ch_count : Nat)
    (dst_channel_names : List String) : SpecS :=
  { width := nspec.width
    height := nspec.height
    depth := nspec.depth
    nchannels := sub_ch_count
    format :=
      if nspec.channelformats ≠ [] then nspec.channelformats.getD sub_start nspec.format
      else nspec.format
    channelformats := []
    channelnames := dst_channel_names
    extra_attribs :=
      if sub_start = 0 then copy_metadata opts.rm_manifest nspec.extra_attribs else []
    compression :=
      if opts.compression.getD "" ≠ "" then stripQuotes (opts.compression.getD "")
      else nspec.compression
    name := recent
    roi := roi
    full_width := nspec.full_width
    full_height := nspec.full_height
    full_x := nspec.full_x
    full_y := nspec.full_y
    full_z := nspec.full_z }

/-- The entries of the shared `properties` dictionary that the channel loop
of `split_subimages` reads and writes. -/
structure SplitState where
  recent_sub : String
  sub_ch_count : Nat
  sub_names : List String
  sub_specs : List SpecS
  sub_pixels : List PixelBuf
deriving Repr, DecidableEq, Inhabited

/-- Lines 133 to 188: the emission block of the channel loop, run when a
subimage boundary is found. It receives the state and `channelindex` at
entry of the block; when `channelindex + 1 = nchannels` (the last channel)
the counters are first bumped by lines 134 to 136. It appends the group
name, spec and pixel buffer, resets `sub_ch_count` to 0 (line 188), and
returns the updated state with the (possibly bumped) `channelindex`. -/
def emit_subimage (img : ImageBuf) (opts : Options) (roi : Region)
    (st : SplitState) (channelindex0 : Nat) : SplitState × Nat :=
  let sub_ch_count :=
    if channelindex0 + 1 = img.spec.nchannels then st.sub_ch_count + 1 else st.sub_ch_count
  let channelindex :=
    if channelindex0 + 1 = img.spec.nchannels then channelindex0 + 1 else channelindex0
  let sub_start := channelindex - sub_ch_count
  let sub_end := channelindex - 1
  let src_channel_names := pySlice img.spec.channelnames sub_start (sub_end + 1)
  let dst_channel_names :=
    if opts.fix_channels then src_channel_names.map fix_channel else src_channel_names
  let spec := make_subimage_spec img.spec opts roi st.recent_sub sub_start sub_ch_count
    dst_channel_names
  ({ recent_sub := st.recent_sub
     sub_ch_count := 0
     sub_names := st.sub_names ++ [st.recent_sub]
     sub_specs := st.sub_specs ++ [spec]
     sub_pixels := st.sub_pixels ++ [{ channels := src_channel_names, roi := roi }] },
   channelindex)

/-- Lines 124 to 191: the channel loop of `split_subimages`. The list
argument is the remaining channel names, the `Nat` argument the loop counter
`channelindex`. Each iteration optionally runs the emission block and then
executes the common tail of lines 189 to 191: increment `channelindex`, set
`recent_sub` to the current key, increment `sub_ch_count`. -/
def split_loop (img : ImageBuf) (opts : Options) (roi : Region) :
    List String → Nat → SplitState → SplitState
  | [], _, st => st
  | channel_name :: rest, channelindex, st =>
    let cur := current_sub channel_name
    let (st, channelindex) :=
      if (st.recent_sub ≠ "" ∧ cur ≠ st.recent_sub) ∨ channelindex + 1 = img.spec.nchannels
      then emit_subimage img opts roi st channelindex
      else (st, channelindex)
    split_loop img opts roi rest (channelindex + 1)
      { st with recent_sub := cur, sub_ch_count := st.sub_ch_count + 1 }

/-- The initial planning state set by `rewrap` at lines 231 to 235. -/
def initState : SplitState :=
  { recent_sub := "", sub_ch_count := 0, sub_names := [], sub_specs := [],
    sub_pixels := [] }

/-- Lines 116 to 195: `split_subimages`. The initial `recent_sub`,
`sub_ch_count` and the empty result lists come from lines 231 to 235 of
`rewrap`. The channel end of the shared region object is set to 4 by line
123; since that mutation is visible to the caller through the shared
`properties` dictionary, it is modelled at the call site in `rewrap`, and
this function receives the region already updated. Returns `none` when the
consistency check of lines 192 to 194 fails. -/
def split_subimages (img : ImageBuf) (opts : Options) (roi : Region) : Option SplitState :=
  let st := split_loop img opts roi img.spec.channelnames 0 initState
  if st.sub_specs.length ≠ st.sub_pixels.length then none else some st

/-- Grouping rule of the amended claim C2, stated independently of
`split_loop` so the two can be compared: scan the channel list left to right
carrying the key of the previous channel (`recent`, initially empty) and the
channels gathered since the last emission (`run`). When at least two
channels remain, a group `(recent, run)` is emitted exactly when `recent` is
nonempty and the key of the current channel differs from it, and the current
channel starts a fresh run; at the last channel the pending group is closed
as `(recent, run ++ [c])`, so the last channel is always placed in the group
of its predecessor, even when its key differs. -/
def groups_amended (recent : String) (run : List String) :
    List String → List (String × List String)
  | [] => []
  | [c] => [(recent, run ++ [c])]
  | c :: c2 :: rest =>
    let k := current_sub c
    if recent ≠ "" ∧ k ≠ recent then (recent, run) :: groups_amended k [c] (c2 :: rest)
    else groups_amended k (run ++ [c]) (c2 :: rest)

/-- Channel indices scanned by the region computation. Modelled from the
spec: RegionCalculator scans the RGB(A) channels, channel range fixed 0 to
4 (clamped to the channel count). -/
def scan_channels (img : ImageBuf) : List Nat := List.range (min 4 img.spec.nchannels)

/-- The integer coordinates of a begin inclusive, end exclusive range. -/
def rangeInts (a b : Int) : List Int := (List.range (b - a).toNat).map fun i => a + i

/-- Columns of the region holding a non-zero pixel in a scanned channel. -/
def nzCols (img : ImageBuf) (roi : Region) : List Int :=
  (rangeInts roi.xbegin roi.xend).filter fun x =>
    (rangeInts roi.ybegin roi.yend).any fun y =>
      (scan_channels img).any fun c => decide (img.pixel c x y ≠ 0)

/-- Rows of the region holding a non-zero pixel in a scanned channel. -/
def nzRows (img : ImageBuf) (roi : Region) : List Int :=
  (rangeInts roi.ybegin roi.yend).filter fun y =>
    (rangeInts roi.xbegin roi.xend).any fun x =>
      (scan_channels img).any fun c => decide (img.pixel c x y ≠ 0)

/-- Modelled from the spec: `oiio.ImageBufAlgo.nonzero_region` (line 228) is
OpenImageIO library code, absent from this repository. Per the spec of
RegionCalculator: scan for the smallest bounding rectangle containing any
non-zero-valued pixel; if no such pixel exists, return the native region
(never return an empty or zero-area region). -/
def nonzero_region (img : ImageBuf) (roi : Region) : Region :=
  match (nzCols img roi).min?, (nzCols img roi).max?,
        (nzRows img roi).min?, (nzRows img roi).max? with
  | some x0, some x1, some y0, some y1 =>
    { roi with xbegin := x0, xend := x1 + 1, ybegin := y0, yend := y1 + 1 }
  | _, _, _, _ => roi

/-- Lines 225 to 228 of `rewrap`: the effective region, starting from the
data window of the loaded image. -/
def region_for_rewrap (img : ImageBuf) (autocrop : Bool) : Region :=
  if autocrop then nonzero_region img img.spec.roi else img.spec.roi

/-- Lines 213 to 219 of `update_specs`: erase every attribute whose name
contains "manifest", raising `RuntimeWarning` (modelled as `Except.error`)
at the first such attribute whose type does not support deletion (the
`TypeError` branch). The Python loop iterates a snapshot of the attribute
list while erasing from the spec by name, which amounts to filtering. -/
def erase_manifests : List Attrib → Except String (List Attrib)
  | [] => .ok []
  | a :: rest =>
    if strContains a.name "manifest" then
      if a.deletable then erase_manifests rest
      else .error "Error while removing manifest"
    else do
      let r ← erase_manifests rest
      .ok (a :: r)

/-- Lines 211 to 222: `update_specs`. Sets the spec region to the shared
one, optionally erases manifest attributes (a failure there propagates as an
exception out of `rewrap`), and overrides the compression attribute when an
override is configured (the source writes the key with a capital C;
OpenImageIO attribute lookup is case-insensitive, so it is the same
attribute). -/
def update_specs (opts : Options) (roi : Region) (spec : SpecS) : Except String SpecS := do
  let spec := { spec with roi := roi }
  let spec ←
    if opts.rm_manifest then do
      let ex ← erase_manifests spec.extra_attribs
      pure { spec with extra_attribs := ex }
    else pure spec
  if opts.compression.getD "" ≠ "" then
    pure { spec with compression := stripQuotes (opts.compression.getD "") }
  else
    pure spec

/-- Lines 247 to 254 of `rewrap`: the pass over an already multi-part
source. Every subimage spec receives the one shared region and the manifest
and compression rules of `update_specs`; its pixel buffer is cut to the same
shared region; its name attribute is collected into `sub_names`. -/
def plan_multipart (opts : Options) (roi : Region) :
    List ImageBuf → Except String (List SpecS × List PixelBuf × List String)
  | [] => .ok ([], [], [])
  | b :: rest => do
    let spec ← update_specs opts roi b.spec
    let (ss, ps, ns) ← plan_multipart opts roi rest
    .ok (spec :: ss, { channels := b.spec.channelnames, roi := roi } :: ps, b.spec.name :: ns)

/-- Oracle for the external image output codec: the results it would report
for the initial `open` call, for each append-mode `open` (indexed by
subimage index) and for each `write_image` call (indexed by write order).
The modelled source never reads `writeOk`; the oracle records what the codec
would have reported for each performed write. -/
structure Writer where
  openOk : Bool
  appendOk : Nat → Bool
  writeOk : Nat → Bool

/-- Lines 265 to 275: the subimage write loop. Returns the reported success
and the number of `write_image` calls performed; the return value of
`write_image` itself is not consulted by the source. -/
def write_loop (w : Writer) : List PixelBuf → Nat → Nat → Bool × Nat
  | [], _, writes => (true, writes)
  | _ :: rest, i, writes =>
    if i ≠ 0 ∧ ¬ w.appendOk i then (false, writes)
    else write_loop w rest (i + 1) (writes + 1)

/-- Lines 259 to 286: the output phase of `rewrap`. In the single-part
branch the spec is rebuilt from the native spec through `update_specs`
(lines 277 to 278), whose manifest failure propagates as an exception. -/
def write_output (w : Writer) (opts : Options) (roi : Region) (image_in : ImageBuf)
    (sub_specs : List SpecS) (sub_pixels : List PixelBuf) : Except String (Bool × Nat) :=
  if sub_specs ≠ [] then
    if ¬ w.openOk then .ok (false, 0)
    else .ok (write_loop w sub_pixels 0 0)
  else do
    let _spec ← update_specs opts roi image_in.spec
    if ¬ w.openOk then .ok (false, 0)
    else .ok (true, 1)

/-- A source file as the codec exposes it: one ImageBuf per subimage (a real
EXR file always has at least one). -/
structure ExrFile where
  parts : List ImageBuf

/-- Lines 229 to 230 of `rewrap`: the compression option value "keep" is
normalized to no override. -/
def norm_compression (opts : Options) : Options :=
  if opts.compression = some "keep" then { opts with compression := none } else opts

/-- Lines 240 to 258 of `rewrap`: fill `sub_specs` and `sub_pixels` (and the
possibly updated shared region) according to the three cases: already
multi-part source, flat source with multipart requested, no split. In the
split case, line 123 mutates the shared ROI object (channel end set to 4)
before the channel loop runs, which is modelled here at the call site. -/
def rewrap_plan (file : ExrFile) (opts : Options) (roi : Region) :
    Except String (List SpecS × List PixelBuf × Region) :=
  if file.parts.length > 1 then do
    let (ss, ps, _ns) ← plan_multipart opts roi file.parts
    pure (ss, ps, roi)
  else if opts.multipart then
    let roi := { roi with chend := 4 }
    match split_subimages (file.parts.headD default) opts roi with
    | none => .error "NoneType has no attribute get"
    | some st => pure (st.sub_specs, st.sub_pixels, roi)
  else
    pure ([], [], roi)

/-- Lines 198 to 286: `rewrap`. The returned pair is the reported success
and the number of `write_image` calls performed; `Except.error` models an
uncaught Python exception escaping `rewrap` (the caller catches any
exception and treats the file as failed). `ImageOutput.create` is assumed to
yield a writer, modelled by the oracle `w`. -/
def rewrap (file : ExrFile) (opts0 : Options) (w : Writer) : Except String (Bool × Nat) := do
  let image_in := file.parts.headD default
  let roi := region_for_rewrap image_in opts0.autocrop
  let opts := norm_compression opts0
  let (sub_specs, sub_pixels, roi2) ← rewrap_plan file opts roi
  write_output w opts roi2 image_in sub_specs sub_pixels

/-! ## Concrete inputs for witnesses and counterexamples -/

/-- Concrete image builder: a 2 by 2 image with the given channels and extra
attributes, all pixels zero, uniform format. -/
def sampleImage (chs : List String) (attrs : List Attrib) : ImageBuf :=
  { spec :=
      { width := 2
        height := 2
        depth := 1
        nchannels := chs.length
        format := "half"
        channelformats := []
        channelnames := chs
        extra_attribs := attrs
        compression := "zip"
        name := ""
        roi := { xbegin := 0, xend := 2, ybegin := 0, yend := 2, chbegin := 0,
                 chend := chs.length }
        full_width := 2
        full_height := 2
        full_x := 0
        full_y := 0
        full_z := 0 }
    pixel := fun _ _ _ => 0 }

def sampleOptions : Options :=
  { autocrop := false, multipart := true, rm_manifest := false, fix_channels := false,
    compression := none, verbose := false }

def sampleRoi : Region :=
  { xbegin := 0, xend := 2, ybegin := 0, yend := 2, chbegin := 0, chend := 4 }

def sampleAttribs : List Attrib :=
  [{ name := "oiio:ColorSpace", type := "string", value := "linear", deletable := true },
   { name := "cryptomatte/abc/manifest", type := "string", value := "json", deletable := true }]

/-- Four channels forming two groups under the grouping rule of the code. -/
def img4 : ImageBuf := sampleImage ["R", "G", "b.x", "b.y"] sampleAttribs

def opts5 : Options := { sampleOptions with rm_manifest := true }

def optsFix : Options := { sampleOptions with fix_channels := true }

def st4 : SplitState :=
  split_loop img4 sampleOptions sampleRoi img4.spec.channelnames 0 initState

def st4rm : SplitState :=
  split_loop img4 opts5 sampleRoi img4.spec.channelnames 0 initState

def imgDZ : ImageBuf := sampleImage ["A", "depth.z"] []

def stDZ : SplitState :=
  split_loop imgDZ optsFix sampleRoi imgDZ.spec.channelnames 0 initState

/-! ## Helper lemmas -/

lemma containsSub_iff_infix (pat : List Char) :
    ∀ l : List Char, containsSub pat l = true ↔ pat <:+: l := by
  intro l
  induction l with
  | nil =>
    simp [containsSub, List.isPrefixOf_iff_prefix, List.infix_nil, List.prefix_nil]
  | cons c t ih =>
    simp [containsSub, List.isPrefixOf_iff_prefix, List.infix_cons_iff, ih]

lemma strContains_iff (s pat : String) :
    strContains s pat = true ↔ pat.toList <:+: s.toList :=
  containsSub_iff_infix pat.toList s.toList

lemma copy_metadata_eq_filter (attrs : List Attrib) :
    copy_metadata true attrs = attrs.filter fun a => ! strContains a.name "manifest" := by
  induction attrs with
  | nil => rfl
  | cons a rest ih =>
    by_cases h : strContains a.name "manifest" = true
    · simp [copy_metadata, List.filter, h, ih]
    · simp [copy_metadata, List.filter, h, ih]

lemma copy_metadata_false (attrs : List Attrib) : copy_metadata false attrs = attrs := by
  induction attrs with
  | nil => rfl
  | cons a rest ih => simp [copy_metadata, ih]

lemma exceptOk_bind {α β ε : Type} (a : α) (f : α → Except ε β) :
    (Except.ok a >>= f) = f a := rfl

lemma exceptError_bind {α β ε : Type} (e : ε) (f : α → Except ε β) :
    ((Except.error e : Except ε α) >>= f) = Except.error e := rfl

lemma erase_manifests_ok (attrs : List Attrib)
    (h : ∀ a ∈ attrs, strContains a.name "manifest" = true → a.deletable = true) :
    erase_manifests attrs = .ok (attrs.filter fun a => ! strContains a.name "manifest") := by
  induction attrs with
  | nil => rfl
  | cons a rest ih =>
    have hrest : ∀ a ∈ rest, strContains a.name "manifest" = true → a.deletable = true :=
      fun x hx => h x (List.mem_cons_of_mem a hx)
    by_cases hc : strContains a.name "manifest" = true
    · have hd : a.deletable = true := h a (List.mem_cons_self a rest) hc
      simp [erase_manifests, hc, hd, ih hrest, List.filter]
    · simp only [erase_manifests, hc, if_false, ih hrest, exceptOk_bind]
      simp [List.filter, hc]

lemma erase_manifests_error (attrs : List Attrib)
    (h : ∃ a ∈ attrs, strContains a.name "manifest" = true ∧ a.deletable = false) :
    erase_manifests attrs = .error "Error while removing manifest" := by
  induction attrs with
  | nil => simp at h
  | cons a rest ih =>
    obtain ⟨b, hb, hbc, hbd⟩ := h
    rcases List.mem_cons.mp hb with rfl | hbrest
    · simp [erase_manifests, hbc, hbd]
    · by_cases hc : strContains a.name "manifest" = true
      · by_cases hd : a.deletable = true
        · simp [erase_manifests, hc, hd, ih ⟨b, hbrest, hbc, hbd⟩]
        · simp [erase_manifests, hc, hd]
      · simp [erase_manifests, hc, ih ⟨b, hbrest, hbc, hbd⟩, exceptError_bind]

/-- Fields of `update_specs` output: the region is set to the shared one and
the name and channel list are never touched. -/
lemma update_specs_ok (opts : Options) (roi : Region) (spec spec' : SpecS)
    (h : update_specs opts roi spec = .ok spec') :
    spec'.roi = roi ∧ spec'.name = spec.name ∧ spec'.channelnames = spec.channelnames := by
  unfold update_specs at h
  by_cases hrm : opts.rm_manifest = true
  · rcases he : erase_manifests spec.extra_attribs with e | ex
    · rw [hrm] at h
      simp only [if_true, he, exceptError_bind] at h
      exact absurd h (by simp)
    · rw [hrm] at h
      simp only [if_true, he, exceptOk_bind] at h
      by_cases hcomp : opts.compression.getD "" ≠ ""
      · simp only [if_pos hcomp, exceptOk_bind] at h
        have h2 : _ = spec' := Except.ok.inj h
        subst h2; exact ⟨rfl, rfl, rfl⟩
      · simp only [if_neg hcomp, exceptOk_bind] at h
        have h2 : _ = spec' := Except.ok.inj h
        subst h2; exact ⟨rfl, rfl, rfl⟩
  · simp only [hrm, if_false, exceptOk_bind] at h
    by_cases hcomp : opts.compression.getD "" ≠ ""
    · simp only [if_pos hcomp, exceptOk_bind] at h
      have h2 : _ = spec' := Except.ok.inj h
      subst h2; exact ⟨rfl, rfl, rfl⟩
    · simp only [if_neg hcomp, exceptOk_bind] at h
      have h2 : _ = spec' := Except.ok.inj h
      subst h2; exact ⟨rfl, rfl, rfl⟩

lemma update_specs_error (opts : Options) (roi : Region) (spec : SpecS)
    (hrm : opts.rm_manifest = true)
    (h : ∃ a ∈ spec.extra_attribs, strContains a.name "manifest" = true ∧ a.deletable = false) :
    update_specs opts roi spec = .error "Error while removing manifest" := by
  unfold update_specs
  simp [hrm, erase_manifests_error spec.extra_attribs h, exceptError_bind]

/-! ### Write loop lemmas -/

lemma write_loop_all_ok (w : Writer) :
    ∀ (ps : List PixelBuf) (i acc : Nat),
      (∀ j, i ≤ j → j < i + ps.length → j ≠ 0 → w.appendOk j = true) →
      write_loop w ps i acc = (true, acc + ps.length) := by
  intro ps
  induction ps with
  | nil => intro i acc _; simp [write_loop]
  | cons p rest ih =>
    intro i acc h
    have hcond : ¬ (i ≠ 0 ∧ ¬ w.appendOk i = true) := by
      by_cases hi : i = 0
      · simp [hi]
      · have := h i (le_refl i) (by simp only [List.length_cons]; omega) hi
        simp [this]
    rw [write_loop, if_neg hcond, ih (i + 1) (acc + 1)
      (fun j hj1 hj2 hj3 => h j (by omega)
        (by simp only [List.length_cons] at hj2 ⊢; omega) hj3)]
    simp only [Prod.mk.injEq, List.length_cons, true_and]
    omega

lemma write_loop_true_char (w : Writer) :
    ∀ (ps : List PixelBuf) (i acc n : Nat),
      write_loop w ps i acc = (true, n) →
      (∀ j, i ≤ j → j < i + ps.length → j ≠ 0 → w.appendOk j = true) ∧ n = acc + ps.length := by
  intro ps
  induction ps with
  | nil =>
    intro i acc n h
    simp [write_loop] at h
    constructor
    · intro j hj1 hj2
      simp only [List.length_nil, Nat.add_zero] at hj2
      omega
    · simp [h]
  | cons p rest ih =>
    intro i acc n h
    rw [write_loop] at h
    by_cases hcond : i ≠ 0 ∧ ¬ w.appendOk i = true
    · rw [if_pos hcond] at h; simp at h
    · rw [if_neg hcond] at h
      obtain ⟨hall, hn⟩ := ih (i + 1) (acc + 1) n h
      refine ⟨?_, ?_⟩
      · intro j hj1 hj2 hj3
        by_cases hji : j = i
        · by_cases hOk : w.appendOk j = true
          · exact hOk
          · rw [hji] at hOk hj3
            exact absurd ⟨hj3, hOk⟩ hcond
        · exact hall j (by omega) (by simp only [List.length_cons] at hj2 ⊢; omega) hj3
      · simp only [List.length_cons]
        omega

lemma write_loop_first_fail (w : Writer) :
    ∀ (ps : List PixelBuf) (i acc k : Nat),
      i ≤ k → k < i + ps.length → k ≠ 0 → w.appendOk k = false →
      (∀ j, i ≤ j → j < k → j ≠ 0 → w.appendOk j = true) →
      write_loop w ps i acc = (false, acc + (k - i)) := by
  intro ps
  induction ps with
  | nil =>
    intro i acc k h1 h2
    simp only [List.length_nil, Nat.add_zero] at h2
    omega
  | cons p rest ih =>
    intro i acc k h1 h2 h3 h4 h5
    by_cases hki : k = i
    · rw [write_loop, if_pos ⟨by omega, by rw [← hki, h4]; simp⟩]
      have : acc = acc + (k - i) := by omega
      rw [← this]
    · have hlt : i < k := by omega
      have hcond : ¬ (i ≠ 0 ∧ ¬ w.appendOk i = true) := by
        by_cases hi : i = 0
        · simp [hi]
        · simp [h5 i (le_refl i) hlt hi]
      rw [write_loop, if_neg hcond,
        ih (i + 1) (acc + 1) k (by omega)
          (by simp only [List.length_cons] at h2 ⊢; omega) h3 h4
          (fun j hj1 hj2 hj3 => h5 j (by omega) hj2 hj3)]
      have : acc + 1 + (k - (i + 1)) = acc + (k - i) := by omega
      rw [this]

/-! ### Region lemmas -/

lemma foldl_min_le (t : List Int) : ∀ x : Int, t.foldl min x ≤ x := by
  induction t with
  | nil => intro x; simp
  | cons a t ih =>
    intro x
    calc (a :: t).foldl min x = t.foldl min (min x a) := by simp [List.foldl]
    _ ≤ min x a := ih (min x a)
    _ ≤ x := min_le_left x a

lemma le_foldl_max (t : List Int) : ∀ x : Int, x ≤ t.foldl max x := by
  induction t with
  | nil => intro x; simp
  | cons a t ih =>
    intro x
    calc x ≤ max x a := le_max_left x a
    _ ≤ t.foldl max (max x a) := ih (max x a)
    _ = (a :: t).foldl max x := by simp [List.foldl]

lemma min?_le_max? (l : List Int) (a b : Int)
    (h1 : l.min? = some a) (h2 : l.max? = some b) : a ≤ b := by
  have hmem : a ∈ l := List.min?_mem min_choice h1
  have hanti : Std.Antisymm fun x1 x2 : Int => x1 ≤ x2 :=
    ⟨@fun _ _ hab hba => le_antisymm hab hba⟩
  have hmax := (List.max?_eq_some_iff le_refl max_choice (fun _ _ _ => max_le_iff)).mp h2
  exact hmax.2 a hmem

lemma nzCols_nil_of_zero (img : ImageBuf) (roi : Region)
    (h : ∀ c ∈ scan_channels img, ∀ x ∈ rangeInts roi.xbegin roi.xend,
      ∀ y ∈ rangeInts roi.ybegin roi.yend, img.pixel c x y = 0) :
    nzCols img roi = [] := by
  unfold nzCols
  rw [List.filter_eq_nil_iff]
  intro x hx
  rw [Bool.not_eq_true, List.any_eq_false]
  intro y hy
  rw [Bool.not_eq_true, List.any_eq_false]
  intro c hc
  simp [h c hc x hx y hy]

lemma nzRows_nil_of_zero (img : ImageBuf) (roi : Region)
    (h : ∀ c ∈ scan_channels img, ∀ x ∈ rangeInts roi.xbegin roi.xend,
      ∀ y ∈ rangeInts roi.ybegin roi.yend, img.pixel c x y = 0) :
    nzRows img roi = [] := by
  unfold nzRows
  rw [List.filter_eq_nil_iff]
  intro y hy
  rw [Bool.not_eq_true, List.any_eq_false]
  intro x hx
  rw [Bool.not_eq_true, List.any_eq_false]
  intro c hc
  simp [h c hc x hx y hy]

lemma nonzero_region_of_allzero (img : ImageBuf) (roi : Region)
    (h : ∀ c ∈ scan_channels img, ∀ x ∈ rangeInts roi.xbegin roi.xend,
      ∀ y ∈ rangeInts roi.ybegin roi.yend, img.pixel c x y = 0) :
    nonzero_region img roi = roi := by
  unfold nonzero_region
  rw [nzCols_nil_of_zero img roi h, nzRows_nil_of_zero img roi h]
  rfl

lemma nonzero_region_nonempty (img : ImageBuf) (roi : Region)
    (hx : roi.xbegin < roi.xend) (hy : roi.ybegin < roi.yend) :
    (nonzero_region img roi).xbegin < (nonzero_region img roi).xend ∧
    (nonzero_region img roi).ybegin < (nonzero_region img roi).yend := by
  unfold nonzero_region
  split
  next x0 x1 y0 y1 hc1 hc2 hr1 hr2 =>
    have h1 : x0 ≤ x1 := min?_le_max? _ x0 x1 hc1 hc2
    have h2 : y0 ≤ y1 := min?_le_max? _ y0 y1 hr1 hr2
    exact ⟨by simp only []; omega, by simp only []; omega⟩
  next => exact ⟨hx, hy⟩

/-! ### Slice lemmas -/

lemma drop_append_of_le {α : Type} (pre cs : List α) (a : Nat) (h : a ≤ pre.length) :
    (pre ++ cs).drop a = pre.drop a ++ cs := by
  rw [List.drop_append_eq_append_drop]
  have h2 : a - pre.length = 0 := by omega
  rw [h2, List.drop_zero]

lemma pySlice_run {α : Type} (pre cs : List α) (cnt : Nat) (h : cnt ≤ pre.length) :
    pySlice (pre ++ cs) (pre.length - cnt) pre.length = pre.drop (pre.length - cnt) := by
  unfold pySlice
  rw [drop_append_of_le pre cs _ (by omega), List.take_append_eq_append_take]
  have hlen : (pre.drop (pre.length - cnt)).length = cnt := by
    rw [List.length_drop]; omega
  have h1 : pre.length - (pre.length - cnt) = cnt := by omega
  rw [h1, hlen, List.take_of_length_le (by rw [hlen]), Nat.sub_self, List.take_zero,
    List.append_nil]

lemma pySlice_run_last {α : Type} (pre : List α) (c : α) (cnt : Nat) (h : cnt ≤ pre.length) :
    pySlice (pre ++ [c]) (pre.length - cnt) (pre.length + 1) =
      pre.drop (pre.length - cnt) ++ [c] := by
  unfold pySlice
  rw [drop_append_of_le pre [c] _ (by omega)]
  have hlen : (pre.drop (pre.length - cnt) ++ [c]).length = cnt + 1 := by
    simp [List.length_drop]; omega
  have h1 : pre.length + 1 - (pre.length - cnt) = cnt + 1 := by omega
  rw [h1, List.take_of_length_le (by rw [hlen])]

/-! ### Grouping lemmas -/

lemma groups_amended_flatten :
    ∀ (cs : List String) (recent : String) (run : List String), cs ≠ [] →
      ((groups_amended recent run cs).map Prod.snd).flatten = run ++ cs := by
  intro cs
  induction cs with
  | nil => intro recent run h; exact absurd rfl h
  | cons c rest ih =>
    intro recent run _
    cases rest with
    | nil => simp [groups_amended]
    | cons c2 rest2 =>
      rw [groups_amended]
      by_cases hb : recent ≠ "" ∧ current_sub c ≠ recent
      · rw [if_pos hb]
        simp only [List.map_cons, List.flatten_cons,
          ih (current_sub c) [c] (by simp)]
        simp
      · rw [if_neg hb, ih (current_sub c) (run ++ [c]) (by simp)]
        simp

/-- One-step reduction of `split_loop` when the emission condition holds. -/
lemma split_loop_cons_emit (img : ImageBuf) (opts : Options) (roi : Region)
    (c : String) (rest : List String) (ci : Nat) (st : SplitState)
    (h : (st.recent_sub ≠ "" ∧ current_sub c ≠ st.recent_sub) ∨
      ci + 1 = img.spec.nchannels) :
    split_loop img opts roi (c :: rest) ci st =
      split_loop img opts roi rest ((emit_subimage img opts roi st ci).2 + 1)
        { (emit_subimage img opts roi st ci).1 with
          recent_sub := current_sub c
          sub_ch_count := (emit_subimage img opts roi st ci).1.sub_ch_count + 1 } := by
  rw [split_loop, if_pos h]

/-- One-step reduction of `split_loop` when no emission happens. -/
lemma split_loop_cons_noemit (img : ImageBuf) (opts : Options) (roi : Region)
    (c : String) (rest : List String) (ci : Nat) (st : SplitState)
    (h : ¬ ((st.recent_sub ≠ "" ∧ current_sub c ≠ st.recent_sub) ∨
      ci + 1 = img.spec.nchannels)) :
    split_loop img opts roi (c :: rest) ci st =
      split_loop img opts roi rest (ci + 1)
        { st with recent_sub := current_sub c, sub_ch_count := st.sub_ch_count + 1 } := by
  rw [split_loop, if_neg h]

/-- Value of the emission block at the last channel
(`channelindex + 1 = nchannels`). The `Nat` subtractions that appear are
exact: `ci + 1 - (k + 1) = ci - k` and `ci + 1 - 1 = ci` hold without side
conditions. -/
lemma emit_subimage_eq_last (img : ImageBuf) (opts : Options) (roi : Region)
    (st : SplitState) (ci : Nat) (hlast : ci + 1 = img.spec.nchannels) :
    emit_subimage img opts roi st ci =
      ({ recent_sub := st.recent_sub
         sub_ch_count := 0
         sub_names := st.sub_names ++ [st.recent_sub]
         sub_specs := st.sub_specs ++ [make_subimage_spec img.spec opts roi st.recent_sub
           (ci - st.sub_ch_count) (st.sub_ch_count + 1)
           (if opts.fix_channels
             then (pySlice img.spec.channelnames (ci - st.sub_ch_count) (ci + 1)).map
               fix_channel
             else pySlice img.spec.channelnames (ci - st.sub_ch_count) (ci + 1))]
         sub_pixels := st.sub_pixels ++
           [{ channels := pySlice img.spec.channelnames (ci - st.sub_ch_count) (ci + 1),
              roi := roi }] }, ci + 1) := by
  unfold emit_subimage
  rw [if_pos hlast, if_pos hlast]
  have h1 : ci + 1 - (st.sub_ch_count + 1) = ci - st.sub_ch_count := by omega
  have h2 : ci + 1 - 1 + 1 = ci + 1 := by omega
  simp only [h1, h2]

/-- Value of the emission block away from the last channel; needs
`1 ≤ channelindex` so that the Python expression `channelindex - 1 + 1`
equals `channelindex` in `Nat` as well (on reachable states a non-last
emission always has `channelindex ≥ 1`). -/
lemma emit_subimage_eq_notlast (img : ImageBuf) (opts : Options) (roi : Region)
    (st : SplitState) (ci : Nat) (hnot : ¬ ci + 1 = img.spec.nchannels) (hpos : 1 ≤ ci) :
    emit_subimage img opts roi st ci =
      ({ recent_sub := st.recent_sub
         sub_ch_count := 0
         sub_names := st.sub_names ++ [st.recent_sub]
         sub_specs := st.sub_specs ++ [make_subimage_spec img.spec opts roi st.recent_sub
           (ci - st.sub_ch_count) st.sub_ch_count
           (if opts.fix_channels
             then (pySlice img.spec.channelnames (ci - st.sub_ch_count) ci).map fix_channel
             else pySlice img.spec.channelnames (ci - st.sub_ch_count) ci)]
         sub_pixels := st.sub_pixels ++
           [{ channels := pySlice img.spec.channelnames (ci - st.sub_ch_count) ci,
              roi := roi }] }, ci) := by
  unfold emit_subimage
  rw [if_neg hnot, if_neg hnot]
  have h2 : ci - 1 + 1 = ci := by omega
  simp only [h2]

/-- Invariant carried through `split_loop`: the specs and pixel buffers are
appended in lockstep, and the output channel list of each emitted spec is the
fix-channels image of the corresponding extraction channel list. -/
lemma split_loop_parallel (img : ImageBuf) (opts : Options) (roi : Region) :
    ∀ (cs : List String) (ci : Nat) (st : SplitState),
      st.sub_specs.map SpecS.channelnames =
        st.sub_pixels.map (fun p =>
          if opts.fix_channels then p.channels.map fix_channel else p.channels) →
      st.sub_specs.length = st.sub_pixels.length →
      st.sub_names.length = st.sub_pixels.length →
      (split_loop img opts roi cs ci st).sub_specs.map SpecS.channelnames =
        (split_loop img opts roi cs ci st).sub_pixels.map (fun p =>
          if opts.fix_channels then p.channels.map fix_channel else p.channels) ∧
      (split_loop img opts roi cs ci st).sub_specs.length =
        (split_loop img opts roi cs ci st).sub_pixels.length ∧
      (split_loop img opts roi cs ci st).sub_names.length =
        (split_loop img opts roi cs ci st).sub_pixels.length := by
  intro cs
  induction cs with
  | nil => intro ci st h1 h2 h3; exact ⟨h1, h2, h3⟩
  | cons c rest ih =>
    intro ci st h1 h2 h3
    by_cases hcond :
        (st.recent_sub ≠ "" ∧ current_sub c ≠ st.recent_sub) ∨ ci + 1 = img.spec.nchannels
    · rw [split_loop_cons_emit img opts roi c rest ci st hcond]
      by_cases hlast : ci + 1 = img.spec.nchannels
      · rw [emit_subimage_eq_last img opts roi st ci hlast]
        apply ih
        · simp only [List.map_append, h1, make_subimage_spec]
          simp
        · simp [h2]
        · simp [h3]
      · rcases hcond with hb | hl
        · rcases Nat.eq_zero_or_pos ci with hci | hci
          · subst hci
            unfold emit_subimage
            rw [if_neg hlast, if_neg hlast]
            apply ih
            · simp only [List.map_append, h1, make_subimage_spec]
              simp
            · simp [h2]
            · simp [h3]
          · rw [emit_subimage_eq_notlast img opts roi st ci hlast hci]
            apply ih
            · simp only [List.map_append, h1, make_subimage_spec]
              simp
            · simp [h2]
            · simp [h3]
        · exact absurd hl hlast
    · rw [split_loop_cons_noemit img opts roi c rest ci st hcond]
      exact ih (ci + 1) _ h1 h2 h3

/-- One-step reduction of `groups_amended` at a key change away from the
last channel. -/
lemma groups_amended_cons_break (recent : String) (run : List String)
    (c c2 : String) (rest : List String)
    (hb : recent ≠ "" ∧ current_sub c ≠ recent) :
    groups_amended recent run (c :: c2 :: rest) =
      (recent, run) :: groups_amended (current_sub c) [c] (c2 :: rest) := by
  rw [groups_amended, if_pos hb]

/-- One-step reduction of `groups_amended` when the run continues. -/
lemma groups_amended_cons_cont (recent : String) (run : List String)
    (c c2 : String) (rest : List String)
    (hb : ¬ (recent ≠ "" ∧ current_sub c ≠ recent)) :
    groups_amended recent run (c :: c2 :: rest) =
      groups_amended (current_sub c) (run ++ [c]) (c2 :: rest) := by
  rw [groups_amended, if_neg hb]

/-- Appending one emitted spec preserves the first-group-metadata shape. -/
lemma metadata_step (old : List SpecS) (spec : SpecS) (copyv : List Attrib)
    (hM : (old = [] ∧ spec.extra_attribs = copyv) ∨
      (old ≠ [] ∧ spec.extra_attribs = [] ∧
        (∀ s, old.head? = some s → s.extra_attribs = copyv) ∧
        (∀ s ∈ old.tail, s.extra_attribs = []))) :
    (∀ s, (old ++ [spec]).head? = some s → s.extra_attribs = copyv) ∧
    (∀ s ∈ (old ++ [spec]).tail, s.extra_attribs = []) := by
  rcases hM with ⟨rfl, hsp⟩ | ⟨hne, hsp, hhead, htail⟩
  · constructor
    · intro s hs
      simp only [List.nil_append, List.head?_cons, Option.some.injEq] at hs
      rw [← hs]; exact hsp
    · intro s hs
      simp at hs
  · cases old with
    | nil => exact absurd rfl hne
    | cons o t =>
      constructor
      · intro s hs
        simp only [List.cons_append, List.head?_cons, Option.some.injEq] at hs
        rw [← hs]
        exact hhead o (by simp)
      · intro s hs
        simp only [List.cons_append, List.tail_cons] at hs
        rcases List.mem_append.mp hs with h | h
        · exact htail s (by simpa using h)
        · simp only [List.mem_singleton] at h
          rw [h]; exact hsp

/-- Canonical form of one loop step at the last channel. -/
lemma split_loop_cons_last (img : ImageBuf) (opts : Options) (roi : Region)
    (c : String) (rest : List String) (ci : Nat) (st : SplitState)
    (hlast : ci + 1 = img.spec.nchannels) :
    split_loop img opts roi (c :: rest) ci st =
      split_loop img opts roi rest (ci + 1 + 1)
        { recent_sub := current_sub c
          sub_ch_count := 1
          sub_names := st.sub_names ++ [st.recent_sub]
          sub_specs := st.sub_specs ++ [make_subimage_spec img.spec opts roi st.recent_sub
            (ci - st.sub_ch_count) (st.sub_ch_count + 1)
            (if opts.fix_channels
              then (pySlice img.spec.channelnames (ci - st.sub_ch_count) (ci + 1)).map
                fix_channel
              else pySlice img.spec.channelnames (ci - st.sub_ch_count) (ci + 1))]
          sub_pixels := st.sub_pixels ++
            [{ channels := pySlice img.spec.channelnames (ci - st.sub_ch_count) (ci + 1),
               roi := roi }] } := by
  rw [split_loop_cons_emit img opts roi c rest ci st (Or.inr hlast),
    emit_subimage_eq_last img opts roi st ci hlast]

/-- Canonical form of one loop step at a non-last boundary. -/
lemma split_loop_cons_mid (img : ImageBuf) (opts : Options) (roi : Region)
    (c : String) (rest : List String) (ci : Nat) (st : SplitState)
    (hb : st.recent_sub ≠ "" ∧ current_sub c ≠ st.recent_sub)
    (hnot : ¬ ci + 1 = img.spec.nchannels) (hpos : 1 ≤ ci) :
    split_loop img opts roi (c :: rest) ci st =
      split_loop img opts roi rest (ci + 1)
        { recent_sub := current_sub c
          sub_ch_count := 1
          sub_names := st.sub_names ++ [st.recent_sub]
          sub_specs := st.sub_specs ++ [make_subimage_spec img.spec opts roi st.recent_sub
            (ci - st.sub_ch_count) st.sub_ch_count
            (if opts.fix_channels
              then (pySlice img.spec.channelnames (ci - st.sub_ch_count) ci).map fix_channel
              else pySlice img.spec.channelnames (ci - st.sub_ch_count) ci)]
          sub_pixels := st.sub_pixels ++
            [{ channels := pySlice img.spec.channelnames (ci - st.sub_ch_count) ci,
               roi := roi }] } := by
  rw [split_loop_cons_emit img opts roi c rest ci st (Or.inl hb),
    emit_subimage_eq_notlast img opts roi st ci hnot hpos]

set_option maxRecDepth 4000 in
/-- The central invariant of `split_loop`, run from an arbitrary mid-loop
state: the emitted names and pixel buffers follow the amended grouping rule
`groups_amended`, and the filtered source metadata sits exactly on the spec
whose channel range starts at 0 (the first emitted spec). `pre` is the list
of channels already consumed, so `pre.length` is the loop counter. -/
lemma split_loop_master (img : ImageBuf) (opts : Options) (roi : Region)
    (hch : img.spec.nchannels = img.spec.channelnames.length) :
    ∀ (cs pre : List String) (st : SplitState),
      img.spec.channelnames = pre ++ cs →
      st.sub_ch_count ≤ pre.length →
      (pre = [] → st.recent_sub = "" ∧ st.sub_ch_count = 0) →
      (pre ≠ [] → 1 ≤ st.sub_ch_count) →
      ((st.sub_specs = [] ∧ pre.length = st.sub_ch_count) ∨
        (st.sub_specs ≠ [] ∧ st.sub_ch_count < pre.length ∧
          (∀ s, st.sub_specs.head? = some s →
            s.extra_attribs = copy_metadata opts.rm_manifest img.spec.extra_attribs) ∧
          (∀ s ∈ st.sub_specs.tail, s.extra_attribs = []))) →
      (split_loop img opts roi cs pre.length st).sub_names
          = st.sub_names ++ (groups_amended st.recent_sub
              (pre.drop (pre.length - st.sub_ch_count)) cs).map Prod.fst ∧
      (split_loop img opts roi cs pre.length st).sub_pixels
          = st.sub_pixels ++ (groups_amended st.recent_sub
              (pre.drop (pre.length - st.sub_ch_count)) cs).map
                (fun g => { channels := g.2, roi := roi }) ∧
      (∀ s, (split_loop img opts roi cs pre.length st).sub_specs.head? = some s →
          s.extra_attribs = copy_metadata opts.rm_manifest img.spec.extra_attribs) ∧
      (∀ s ∈ (split_loop img opts roi cs pre.length st).sub_specs.tail,
          s.extra_attribs = []) := by
  intro cs
  induction cs with
  | nil =>
    intro pre st hfull hcnt h0 h1 hM
    refine ⟨by simp [split_loop, groups_amended], by simp [split_loop, groups_amended],
      ?_, ?_⟩
    · rcases hM with ⟨hnil, _⟩ | ⟨_, _, hhead, _⟩
      · intro s hs
        rw [split_loop] at hs
        rw [hnil] at hs
        simp at hs
      · intro s hs
        rw [split_loop] at hs
        exact hhead s hs
    · rcases hM with ⟨hnil, _⟩ | ⟨_, _, _, htail⟩
      · intro s hs
        rw [split_loop] at hs
        rw [hnil] at hs
        simp at hs
      · intro s hs
        rw [split_loop] at hs
        exact htail s hs
  | cons c rest ih =>
    intro pre st hfull hcnt h0 h1 hM
    cases rest with
    | nil =>
      -- last channel of the image: the emission condition holds through its
      -- second disjunct and the last-channel branch runs
      have hlast : pre.length + 1 = img.spec.nchannels := by
        rw [hch, hfull]
        simp
      rw [split_loop_cons_last img opts roi c [] pre.length st hlast]
      have hsrc : pySlice img.spec.channelnames (pre.length - st.sub_ch_count)
          (pre.length + 1) = pre.drop (pre.length - st.sub_ch_count) ++ [c] := by
        rw [hfull]
        exact pySlice_run_last pre c st.sub_ch_count hcnt
      refine ⟨by simp [split_loop, groups_amended], ?_, ?_⟩
      · simp [split_loop, groups_amended, hsrc]
      · have hmeta := metadata_step st.sub_specs
          (make_subimage_spec img.spec opts roi st.recent_sub
            (pre.length - st.sub_ch_count) (st.sub_ch_count + 1)
            (if opts.fix_channels
              then (pySlice img.spec.channelnames (pre.length - st.sub_ch_count)
                (pre.length + 1)).map fix_channel
              else pySlice img.spec.channelnames (pre.length - st.sub_ch_count)
                (pre.length + 1)))
          (copy_metadata opts.rm_manifest img.spec.extra_attribs) ?_
        · constructor
          · intro s hs
            rw [split_loop] at hs
            exact hmeta.1 s hs
          · intro s hs
            rw [split_loop] at hs
            exact hmeta.2 s hs
        · rcases hM with ⟨hnil, hpl⟩ | ⟨hne, hlt, hhead, htail⟩
          · left
            refine ⟨hnil, ?_⟩
            have hz : pre.length - st.sub_ch_count = 0 := by omega
            simp [make_subimage_spec, hz]
          · right
            refine ⟨hne, ?_, hhead, htail⟩
            have hz : ¬ pre.length - st.sub_ch_count = 0 := by omega
            simp [make_subimage_spec, hz]
    | cons c2 rest2 =>
      have hnotlast : ¬ pre.length + 1 = img.spec.nchannels := by
        rw [hch, hfull]
        simp only [List.length_append, List.length_cons]
        omega
      by_cases hb : st.recent_sub ≠ "" ∧ current_sub c ≠ st.recent_sub
      · -- a boundary away from the last channel: emit and start a new run
        have hpre : pre ≠ [] := fun h => hb.1 ((h0 h).1)
        have hplen : 1 ≤ pre.length := by
          cases pre with
          | nil => exact absurd rfl hpre
          | cons a t => simp
        rw [split_loop_cons_mid img opts roi c (c2 :: rest2) pre.length st hb hnotlast hplen]
        have hsrc : pySlice img.spec.channelnames (pre.length - st.sub_ch_count)
            pre.length = pre.drop (pre.length - st.sub_ch_count) := by
          rw [hfull]
          exact pySlice_run pre (c :: c2 :: rest2) st.sub_ch_count hcnt
        obtain ⟨ihn, ihp, ihm⟩ := ih (pre ++ [c])
          { recent_sub := current_sub c
            sub_ch_count := 1
            sub_names := st.sub_names ++ [st.recent_sub]
            sub_specs := st.sub_specs ++ [make_subimage_spec img.spec opts roi st.recent_sub
              (pre.length - st.sub_ch_count) st.sub_ch_count
              (if opts.fix_channels
                then (pySlice img.spec.channelnames (pre.length - st.sub_ch_count)
                  pre.length).map fix_channel
                else pySlice img.spec.channelnames (pre.length - st.sub_ch_count)
                  pre.length)]
            sub_pixels := st.sub_pixels ++
              [{ channels := pySlice img.spec.channelnames (pre.length - st.sub_ch_count)
                   pre.length,
                 roi := roi }] }
          (by rw [hfull]; simp) (by simp) (by intro h; simp at h) (by intro _; simp)
          (by
            right
            refine ⟨by simp, by simp only [List.length_append, List.length_cons,
              List.length_nil]; omega, ?_⟩
            have hmeta := metadata_step st.sub_specs
              (make_subimage_spec img.spec opts roi st.recent_sub
                (pre.length - st.sub_ch_count) st.sub_ch_count
                (if opts.fix_channels
                  then (pySlice img.spec.channelnames (pre.length - st.sub_ch_count)
                    pre.length).map fix_channel
                  else pySlice img.spec.channelnames (pre.length - st.sub_ch_count)
                    pre.length))
              (copy_metadata opts.rm_manifest img.spec.extra_attribs) ?_
            · exact hmeta
            · rcases hM with ⟨hnil, hpl⟩ | ⟨hne, hlt, hhead, htail⟩
              · left
                refine ⟨hnil, ?_⟩
                have hz : pre.length - st.sub_ch_count = 0 := by omega
                simp [make_subimage_spec, hz]
              · right
                refine ⟨hne, ?_, hhead, htail⟩
                have hz : ¬ pre.length - st.sub_ch_count = 0 := by omega
                simp [make_subimage_spec, hz])
        simp only [List.length_append, List.length_cons, List.length_nil, Nat.zero_add,
          Nat.add_sub_cancel, List.drop_left] at ihn ihp ihm
        refine ⟨?_, ?_, ihm⟩
        · rw [ihn, groups_amended_cons_break st.recent_sub _ c c2 rest2 hb]
          simp
        · rw [ihp, groups_amended_cons_break st.recent_sub _ c c2 rest2 hb]
          simp [hsrc]
      · -- no boundary: extend the current run
        have hcond : ¬ ((st.recent_sub ≠ "" ∧ current_sub c ≠ st.recent_sub) ∨
            pre.length + 1 = img.spec.nchannels) := by
          rintro (h | h)
          · exact hb h
          · exact hnotlast h
        rw [split_loop_cons_noemit img opts roi c (c2 :: rest2) pre.length st hcond]
        have hrun : (pre ++ [c]).drop (pre.length - st.sub_ch_count)
            = pre.drop (pre.length - st.sub_ch_count) ++ [c] :=
          drop_append_of_le pre [c] _ (by omega)
        obtain ⟨ihn, ihp, ihm⟩ := ih (pre ++ [c])
          { st with recent_sub := current_sub c, sub_ch_count := st.sub_ch_count + 1 }
          (by rw [hfull]; simp)
          (by simp only [List.length_append, List.length_cons, List.length_nil]; omega)
          (by intro h; simp at h) (by intro _; simp)
          (by
            rcases hM with ⟨hnil, hpl⟩ | ⟨hne, hlt, hhead, htail⟩
            · left
              refine ⟨hnil, ?_⟩
              simp only [List.length_append, List.length_cons, List.length_nil]
              omega
            · right
              refine ⟨hne, ?_, hhead, htail⟩
              simp only [List.length_append, List.length_cons, List.length_nil]
              omega)
        simp only [List.length_append, List.length_cons, List.length_nil, Nat.zero_add]
          at ihn ihp ihm
        have harith : pre.length + 1 - (st.sub_ch_count + 1) = pre.length - st.sub_ch_count :=
          by omega
        rw [harith, hrun] at ihn ihp
        refine ⟨?_, ?_, ihm⟩
        · rw [ihn, groups_amended_cons_cont st.recent_sub _ c c2 rest2 hb]
        · rw [ihp, groups_amended_cons_cont st.recent_sub _ c c2 rest2 hb]

/-- `split_subimages` never hits the length mismatch of lines 192 to 194. -/
lemma split_subimages_eq_some (img : ImageBuf) (opts : Options) (roi : Region) :
    split_subimages img opts roi
      = some (split_loop img opts roi img.spec.channelnames 0 initState) := by
  unfold split_subimages
  rw [if_neg]
  simp only [ne_eq, Decidable.not_not]
  exact (split_loop_parallel img opts roi img.spec.channelnames 0 initState
    rfl rfl rfl).2.1

/-- `split_subimages` from the real initial state of `rewrap` (lines 231 to
235): the emitted names and pixel buffers are exactly those of
`groups_amended`, and the filtered source metadata sits exactly on the first
emitted spec. -/
lemma split_subimages_groups (img : ImageBuf) (opts : Options) (roi : Region)
    (hch : img.spec.nchannels = img.spec.channelnames.length) (st : SplitState)
    (hs : split_subimages img opts roi = some st) :
    st.sub_names = (groups_amended "" [] img.spec.channelnames).map Prod.fst ∧
    st.sub_pixels = (groups_amended "" [] img.spec.channelnames).map
      (fun g => { channels := g.2, roi := roi }) ∧
    (∀ s, st.sub_specs.head? = some s →
      s.extra_attribs = copy_metadata opts.rm_manifest img.spec.extra_attribs) ∧
    (∀ s ∈ st.sub_specs.tail, s.extra_attribs = []) := by
  rw [split_subimages_eq_some img opts roi] at hs
  have hst := Option.some.inj hs
  subst hst
  have hmaster := split_loop_master img opts roi hch img.spec.channelnames [] initState
    (by simp) (by simp [initState]) (fun _ => ⟨rfl, rfl⟩) (fun h => absurd rfl h)
    (Or.inl ⟨rfl, by simp [initState]⟩)
  simpa [initState] using hmaster

lemma groups_amended_flatten_all (full : List String) :
    ((groups_amended "" [] full).map Prod.snd).flatten = full := by
  cases full with
  | nil => rfl
  | cons c rest => exact groups_amended_flatten (c :: rest) "" [] (by simp)

/-- The specs and pixel buffers of a split run correspond pointwise: same
count, and each spec channel list is the (optionally fixed) extraction
list. -/
lemma split_subimages_parallel (img : ImageBuf) (opts : Options) (roi : Region)
    (st : SplitState) (hs : split_subimages img opts roi = some st) :
    st.sub_specs.map SpecS.channelnames =
      st.sub_pixels.map (fun p =>
        if opts.fix_channels then p.channels.map fix_channel else p.channels) := by
  rw [split_subimages_eq_some img opts roi] at hs
  have hst := Option.some.inj hs
  subst hst
  exact (split_loop_parallel img opts roi img.spec.channelnames 0 initState
    rfl rfl rfl).1

lemma split_subimages_pixels_flatten (img : ImageBuf) (opts : Options) (roi : Region)
    (hch : img.spec.nchannels = img.spec.channelnames.length) (st : SplitState)
    (hs : split_subimages img opts roi = some st) :
    (st.sub_pixels.map PixelBuf.channels).flatten = img.spec.channelnames := by
  obtain ⟨-, hp, -, -⟩ := split_subimages_groups img opts roi hch st hs
  rw [hp, List.map_map]
  have hcomp : (PixelBuf.channels ∘ fun g : String × List String =>
      ({ channels := g.2, roi := roi } : PixelBuf)) = Prod.snd := rfl
  rw [hcomp, groups_amended_flatten_all]

/-- Characterization of the already-multipart planning pass: count
preserved, names collected unchanged, and one shared region everywhere. -/
lemma plan_multipart_ok (opts : Options) (roi : Region) :
    ∀ (parts : List ImageBuf) (ss : List SpecS) (ps : List PixelBuf) (ns : List String),
      plan_multipart opts roi parts = .ok (ss, ps, ns) →
      ss.length = parts.length ∧
      ns = parts.map (fun b => b.spec.name) ∧
      (∀ s ∈ ss, s.roi = roi) ∧
      ps = parts.map (fun b => { channels := b.spec.channelnames, roi := roi }) := by
  intro parts
  induction parts with
  | nil =>
    intro ss ps ns h
    rw [plan_multipart] at h
    simp only [Except.ok.injEq, Prod.mk.injEq] at h
    obtain ⟨h1, h2, h3⟩ := h
    subst h1; subst h2; subst h3
    simp
  | cons b rest ih =>
    intro ss ps ns h
    rw [plan_multipart] at h
    rcases hu : update_specs opts roi b.spec with e | spec
    · rw [hu, exceptError_bind] at h
      simp at h
    · rw [hu, exceptOk_bind] at h
      rcases hp : plan_multipart opts roi rest with e | out
      · rw [hp, exceptError_bind] at h
        simp at h
      · obtain ⟨ss2, ps2, ns2⟩ := out
        rw [hp, exceptOk_bind] at h
        simp only [Except.ok.injEq, Prod.mk.injEq] at h
        obtain ⟨h1, h2, h3⟩ := h
        subst h1; subst h2; subst h3
        obtain ⟨ih1, ih2, ih3, ih4⟩ := ih ss2 ps2 ns2 hp
        refine ⟨by simp [ih1], by simp [ih2], ?_, by simp [ih4]⟩
        intro s hsmem
        rcases List.mem_cons.mp hsmem with rfl | hsmem2
        · exact (update_specs_ok opts roi b.spec s hu).1
        · exact ih3 s hsmem2

/-! ## Claim theorems -/

/-- C7: when removeManifest is true, metadata filtering — both the
split-path copy of lines 156 to 166 and the erase pass of lines 211 to 222
— drops exactly the attributes whose name contains the substring "manifest"
(case-sensitive substring match); every other attribute passes through with
name, type and value unchanged and in order. Deletion must be supported by
the type of each manifest attribute for the erase pass to succeed. -/
theorem C7_manifest_filter (attrs : List Attrib)
    (hdel : ∀ a ∈ attrs, strContains a.name "manifest" = true → a.deletable = true) :
    copy_metadata true attrs =
      attrs.filter (fun a => ! decide ("manifest".toList <:+: a.name.toList)) ∧
    erase_manifests attrs =
      .ok (attrs.filter fun a => ! decide ("manifest".toList <:+: a.name.toList)) := by
  have hfeq : ∀ a ∈ attrs, (! strContains a.name "manifest")
      = (! decide ("manifest".toList <:+: a.name.toList)) := by
    intro a _
    by_cases hc : strContains a.name "manifest" = true
    · have hinf := (strContains_iff a.name "manifest").mp hc
      rw [hc, decide_eq_true hinf]
    · have hBool : strContains a.name "manifest" = false := by
        simpa using hc
      have hninf : ¬ ("manifest".toList <:+: a.name.toList) := by
        intro hinf
        exact hc ((strContains_iff a.name "manifest").mpr hinf)
      rw [hBool, decide_eq_false hninf]
  have hfilter : attrs.filter (fun a => ! strContains a.name "manifest")
      = attrs.filter (fun a => ! decide ("manifest".toList <:+: a.name.toList)) :=
    List.filter_congr hfeq
  exact ⟨by rw [copy_metadata_eq_filter, hfilter],
    by rw [erase_manifests_ok attrs hdel, hfilter]⟩

theorem C7_witness :
    copy_metadata true sampleAttribs =
      sampleAttribs.filter (fun a => ! decide ("manifest".toList <:+: a.name.toList)) ∧
    erase_manifests sampleAttribs =
      .ok (sampleAttribs.filter fun a => ! decide ("manifest".toList <:+: a.name.toList)) :=
  C7_manifest_filter sampleAttribs (by decide)

/-- C4: with autocrop on, when the image holds no non-zero pixel in the
scanned channels of its native region, the computed region is the native
region itself, and for any image with a non-degenerate native region the
computed region is never empty or zero-area. The scan itself is OpenImageIO
library code modelled from the spec, see `nonzero_region`. -/
theorem C4_autocrop_region (img : ImageBuf)
    (hx : img.spec.roi.xbegin < img.spec.roi.xend)
    (hy : img.spec.roi.ybegin < img.spec.roi.yend) :
    ((∀ c ∈ scan_channels img, ∀ x ∈ rangeInts img.spec.roi.xbegin img.spec.roi.xend,
        ∀ y ∈ rangeInts img.spec.roi.ybegin img.spec.roi.yend, img.pixel c x y = 0) →
      region_for_rewrap img true = img.spec.roi) ∧
    (region_for_rewrap img true).xbegin < (region_for_rewrap img true).xend ∧
    (region_for_rewrap img true).ybegin < (region_for_rewrap img true).yend := by
  constructor
  · intro hz
    unfold region_for_rewrap
    simp [nonzero_region_of_allzero img img.spec.roi hz]
  · unfold region_for_rewrap
    simpa using nonzero_region_nonempty img img.spec.roi hx hy

theorem C4_witness :
    region_for_rewrap (sampleImage ["R", "G", "B"] []) true
      = (sampleImage ["R", "G", "B"] []).spec.roi :=
  (C4_autocrop_region (sampleImage ["R", "G", "B"] []) (by decide) (by decide)).1
    (fun _ _ _ _ _ _ => rfl)

/-- C5: in the split case the source extra metadata attributes (filtered)
are propagated only to the group whose channel range starts at index 0,
which is the first emitted spec; every other produced spec carries no source
extra attributes (its compression and name attributes are separate fields,
always set). -/
theorem C5_metadata_first_group_only (img : ImageBuf) (opts : Options) (roi : Region)
    (hch : img.spec.nchannels = img.spec.channelnames.length) (st : SplitState)
    (hs : split_subimages img opts roi = some st) :
    (∀ s, st.sub_specs.head? = some s →
      s.extra_attribs = copy_metadata opts.rm_manifest img.spec.extra_attribs) ∧
    (∀ s ∈ st.sub_specs.tail, s.extra_attribs = []) := by
  obtain ⟨-, -, hh, ht⟩ := split_subimages_groups img opts roi hch st hs
  exact ⟨hh, ht⟩

theorem C5_witness :
    (st4rm.sub_specs.headD default).extra_attribs
      = copy_metadata opts5.rm_manifest img4.spec.extra_attribs ∧
    (st4rm.sub_specs.getD 1 default).extra_attribs = [] := by
  have h := C5_metadata_first_group_only img4 opts5 sampleRoi (by exact rfl) st4rm
    (split_subimages_eq_some img4 opts5 sampleRoi)
  refine ⟨h.1 (st4rm.sub_specs.headD default) (by decide),
    h.2 (st4rm.sub_specs.getD 1 default) (by decide)⟩

/-- C10: with fix_channels on in the split case, each emitted spec channel
list is the extraction channel list renamed pointwise by `fix_channel`: a
name containing the substring "depth.z" is replaced by exactly "depth.Z"
(whole-name replacement), any other name is kept; pixel extraction always
uses the original (pre-rename) names, and their concatenation is exactly the
source channel list. -/
theorem C10_fix_channels (img : ImageBuf) (opts : Options) (roi : Region)
    (hfix : opts.fix_channels = true)
    (hch : img.spec.nchannels = img.spec.channelnames.length) (st : SplitState)
    (hs : split_subimages img opts roi = some st) :
    st.sub_specs.map SpecS.channelnames =
      st.sub_pixels.map (fun p => p.channels.map fix_channel) ∧
    (st.sub_pixels.map PixelBuf.channels).flatten = img.spec.channelnames ∧
    (∀ c : String, ("depth.z".toList <:+: c.toList → fix_channel c = "depth.Z") ∧
      (¬ "depth.z".toList <:+: c.toList → fix_channel c = c)) := by
  refine ⟨?_, split_subimages_pixels_flatten img opts roi hch st hs, ?_⟩
  · rw [split_subimages_parallel img opts roi st hs]
    simp [hfix]
  · intro c
    constructor
    · intro hinf
      unfold fix_channel
      rw [if_pos ((strContains_iff c "depth.z").mpr hinf)]
    · intro hninf
      unfold fix_channel
      rw [if_neg (fun hc => hninf ((strContains_iff c "depth.z").mp hc))]

theorem C10_witness :
    stDZ.sub_specs.map SpecS.channelnames =
      stDZ.sub_pixels.map (fun p => p.channels.map fix_channel) ∧
    (stDZ.sub_pixels.map PixelBuf.channels).flatten = imgDZ.spec.channelnames ∧
    fix_channel "depth.z" = "depth.Z" := by
  have h := C10_fix_channels imgDZ optsFix sampleRoi rfl (by exact rfl) stDZ
    (split_subimages_eq_some imgDZ optsFix sampleRoi)
  exact ⟨h.1, h.2.1, (h.2.2 "depth.z").1 (by decide)⟩

/-- C1 (amended): in the split case, the concatenation of the extraction
channel lists of the produced descriptors, in order, is exactly the source
channel list — no channel dropped, duplicated or reordered. The
concatenation of the descriptor (output) channel lists equals the source
list when fix_channels is off; with fix_channels on it equals the source
list with `fix_channel` applied to each name. In the no-split case the
single descriptor keeps the full channel list unchanged. -/
theorem C1_channel_concatenation (img : ImageBuf) (opts : Options) (roi : Region)
    (hch : img.spec.nchannels = img.spec.channelnames.length) (st : SplitState)
    (hs : split_subimages img opts roi = some st) :
    (st.sub_pixels.map PixelBuf.channels).flatten = img.spec.channelnames ∧
    (st.sub_specs.map SpecS.channelnames).flatten =
      (if opts.fix_channels then img.spec.channelnames.map fix_channel
       else img.spec.channelnames) ∧
    (∀ spec', update_specs opts roi img.spec = .ok spec' →
      spec'.channelnames = img.spec.channelnames) := by
  have hflat := split_subimages_pixels_flatten img opts roi hch st hs
  refine ⟨hflat, ?_, fun spec' h => (update_specs_ok opts roi img.spec spec' h).2.2⟩
  rw [split_subimages_parallel img opts roi st hs]
  by_cases hfix : opts.fix_channels = true
  · rw [if_pos hfix]
    have hmm : st.sub_pixels.map (fun p =>
        if opts.fix_channels then p.channels.map fix_channel else p.channels)
        = (st.sub_pixels.map PixelBuf.channels).map (List.map fix_channel) := by
      simp only [hfix, if_true, List.map_map]
      exact rfl
    rw [hmm, ← List.map_flatten, hflat]
  · have hfix' : opts.fix_channels = false := by simpa using hfix
    rw [if_neg hfix]
    have hmm : st.sub_pixels.map (fun p =>
        if opts.fix_channels then p.channels.map fix_channel else p.channels)
        = st.sub_pixels.map PixelBuf.channels := by
      simp only [hfix']
      exact rfl
    rw [hmm, hflat]

/-- C1 counterexample: with fix_channels on, a flat image with the single
channel named depth.z is split into one descriptor whose channel list is
depth.Z, so the concatenation of the descriptor channel lists does not
reproduce the original channel list. -/
theorem C1_counterexample :
    (split_subimages (sampleImage ["depth.z"] []) optsFix sampleRoi).map
        (fun st => (st.sub_specs.map SpecS.channelnames).flatten)
      = some ["depth.Z"] ∧
    (sampleImage ["depth.z"] []).spec.channelnames = ["depth.z"] ∧
    (["depth.Z"] : List String) ≠ ["depth.z"] :=
  ⟨rfl, rfl, by decide⟩

theorem C1_witness :
    (st4.sub_pixels.map PixelBuf.channels).flatten = img4.spec.channelnames ∧
    (st4.sub_specs.map SpecS.channelnames).flatten =
      (if sampleOptions.fix_channels then img4.spec.channelnames.map fix_channel
       else img4.spec.channelnames) := by
  have h := C1_channel_concatenation img4 sampleOptions sampleRoi (by exact rfl) st4
    (split_subimages_eq_some img4 sampleOptions sampleRoi)
  exact ⟨h.1, h.2.1⟩

/-- C2 (amended): the grouper behaves exactly as `groups_amended`: scanning
left to right, a new group starts exactly when the previous channel key is
nonempty, the current key differs from it, and the current channel is not
the last one; the last channel always closes the pending group and is
included in it, so a last channel whose key differs from its predecessor is
merged into the predecessor group instead of forming its own. -/
theorem C2_grouping_rule (img : ImageBuf) (opts : Options) (roi : Region)
    (hch : img.spec.nchannels = img.spec.channelnames.length) (st : SplitState)
    (hs : split_subimages img opts roi = some st) :
    st.sub_names = (groups_amended "" [] img.spec.channelnames).map Prod.fst ∧
    st.sub_pixels.map PixelBuf.channels =
      (groups_amended "" [] img.spec.channelnames).map Prod.snd := by
  obtain ⟨hn, hp, -, -⟩ := split_subimages_groups img opts roi hch st hs
  refine ⟨hn, ?_⟩
  rw [hp, List.map_map]
  exact rfl

/-- C2 counterexample: on the two-channel image with channels A and Z the
key of Z differs from the key of A, yet the code puts both channels into
one group named rgba — the differing-key last channel ends up in the same
group as its predecessor. -/
theorem C2_counterexample :
    (split_subimages (sampleImage ["A", "Z"] []) sampleOptions sampleRoi).map
        (fun st => st.sub_pixels.map PixelBuf.channels) = some [["A", "Z"]] ∧
    (split_subimages (sampleImage ["A", "Z"] []) sampleOptions sampleRoi).map
        (fun st => st.sub_names) = some ["rgba"] ∧
    current_sub "Z" ≠ current_sub "A" :=
  ⟨rfl, rfl, by decide⟩

theorem C2_witness :
    st4.sub_names = (groups_amended "" [] img4.spec.channelnames).map Prod.fst ∧
    st4.sub_pixels.map PixelBuf.channels =
      (groups_amended "" [] img4.spec.channelnames).map Prod.snd :=
  C2_grouping_rule img4 sampleOptions sampleRoi (by exact rfl) st4
    (split_subimages_eq_some img4 sampleOptions sampleRoi)

/-- C8 (amended): a single-channel image yields exactly one group covering
channel index 0, but the group key recorded for it is the initial
`recent_sub` value, the empty string — not the key computed from the
channel name. -/
theorem C8_single_channel_group (img : ImageBuf) (opts : Options) (roi : Region)
    (c : String) (hc : img.spec.channelnames = [c]) (hch : img.spec.nchannels = 1)
    (st : SplitState) (hs : split_subimages img opts roi = some st) :
    st.sub_names = [""] ∧ st.sub_pixels.map PixelBuf.channels = [[c]] := by
  have hch' : img.spec.nchannels = img.spec.channelnames.length := by
    rw [hc, hch]
    exact rfl
  obtain ⟨hn, hp, -, -⟩ := split_subimages_groups img opts roi hch' st hs
  rw [hc] at hn hp
  constructor
  · rw [hn]
    exact rfl
  · rw [hp, List.map_map]
    exact rfl

/-- C8 counterexample: on the single-channel list Y the code yields one
group, but its key is the empty string and not Y. -/
theorem C8_counterexample :
    (split_subimages (sampleImage ["Y"] []) sampleOptions sampleRoi).map
        (fun st => st.sub_names) = some [""] ∧
    ("" : String) ≠ current_sub "Y" :=
  ⟨rfl, by decide⟩

theorem C8_witness :
    (split_loop (sampleImage ["Y"] []) sampleOptions sampleRoi
        (sampleImage ["Y"] []).spec.channelnames 0 initState).sub_names = [""] ∧
    (split_loop (sampleImage ["Y"] []) sampleOptions sampleRoi
        (sampleImage ["Y"] []).spec.channelnames 0 initState).sub_pixels.map
      PixelBuf.channels = [["Y"]] :=
  C8_single_channel_group (sampleImage ["Y"] []) sampleOptions sampleRoi "Y"
    (by exact rfl) (by exact rfl) _
    (split_subimages_eq_some (sampleImage ["Y"] []) sampleOptions sampleRoi)

/-- C3 (amended): with at least one descriptor, the output phase returns
false with zero writes when the initial open fails; after a successful open
it returns true exactly when every append-mode re-open succeeds, having
performed one `write_image` call per descriptor; and at the first failing
append it stops, with exactly the writes before it performed and none after.
The return value of `write_image` itself is never consulted, so a failed
write does not influence the result (see the counterexample). -/
theorem C3_write_protocol (w : Writer) (opts : Options) (roi : Region) (img : ImageBuf)
    (specs : List SpecS) (pixels : List PixelBuf) (r : Bool × Nat)
    (hne : specs ≠ [])
    (hr : write_output w opts roi img specs pixels = .ok r) :
    (w.openOk = false → r = (false, 0)) ∧
    (r.1 = true ↔ w.openOk = true ∧
      ∀ i, i < pixels.length → i ≠ 0 → w.appendOk i = true) ∧
    (r.1 = true → r.2 = pixels.length) ∧
    (w.openOk = true → ∀ k, k < pixels.length → k ≠ 0 → w.appendOk k = false →
      (∀ j, j < k → j ≠ 0 → w.appendOk j = true) → r = (false, k)) := by
  unfold write_output at hr
  rw [if_pos hne] at hr
  by_cases hopen : w.openOk = true
  · rw [if_neg (by simp [hopen])] at hr
    have hr2 : write_loop w pixels 0 0 = r := Except.ok.inj hr
    refine ⟨?_, ?_, ?_, ?_⟩
    · intro hfalse
      rw [hfalse] at hopen
      simp at hopen
    · constructor
      · intro h1
        have hrtrue : write_loop w pixels 0 0 = (true, r.2) := by
          rw [hr2, ← h1]
        obtain ⟨hall, -⟩ := write_loop_true_char w pixels 0 0 r.2 hrtrue
        exact ⟨hopen, fun i hi hi0 => hall i (by omega) (by omega) hi0⟩
      · rintro ⟨-, hall⟩
        have hok := write_loop_all_ok w pixels 0 0 (fun j _ _ hj0 => hall j (by omega) hj0)
        rw [hok] at hr2
        rw [← hr2]
    · intro h1
      have hrtrue : write_loop w pixels 0 0 = (true, r.2) := by
        rw [hr2, ← h1]
      obtain ⟨-, hn⟩ := write_loop_true_char w pixels 0 0 r.2 hrtrue
      omega
    · intro _ k hk hk0 hkf hprev
      have hfail := write_loop_first_fail w pixels 0 0 k (by omega) (by omega) hk0 hkf
        (fun j _ hj2 hj3 => hprev j hj2 hj3)
      rw [hfail] at hr2
      rw [← hr2]
      have hkk : 0 + (k - 0) = k := by omega
      rw [hkk]
  · rw [if_pos hopen] at hr
    have hr2 : ((false, 0) : Bool × Nat) = r := Except.ok.inj hr
    refine ⟨fun _ => hr2.symm, ?_, ?_, fun ho => absurd ho hopen⟩
    · constructor
      · intro h1
        rw [← hr2] at h1
        simp at h1
      · rintro ⟨ho, -⟩
        exact absurd ho hopen
    · intro h1
      rw [← hr2] at h1
      simp at h1

def wWriteFails : Writer :=
  { openOk := true, appendOk := fun _ => true, writeOk := fun _ => false }

def optsPlain : Options := { sampleOptions with multipart := false }

/-- C3 counterexample: every open succeeds but the codec reports failure for
the single `write_image` call performed; `rewrap` still returns true, so an
error from writing pixels is silently ignored, refuting that true is
returned only when every descriptor was written without error. -/
theorem C3_counterexample :
    rewrap ⟨[sampleImage ["R", "G", "B"] []]⟩ optsPlain wWriteFails = .ok (true, 1) ∧
    wWriteFails.writeOk 0 = false :=
  ⟨rfl, rfl⟩

def wTrue : Writer :=
  { openOk := true, appendOk := fun _ => true, writeOk := fun _ => true }

theorem C3_witness :
    write_output wTrue sampleOptions sampleRoi (sampleImage [] [])
        [default, default] [default, default]
      = .ok (true, 2) ∧
    ((true, 2) : Bool × Nat).2 = ([default, default] : List PixelBuf).length := by
  have h := C3_write_protocol wTrue sampleOptions sampleRoi (sampleImage [] [])
    [default, default] [default, default] (true, 2) (by simp) (by exact rfl)
  exact ⟨by exact rfl, h.2.2.1 rfl⟩

/-- C6 (amended): the already-multipart pass iterates every existing
subimage, but the crop region is computed once — from the first subimage
native region (line 226) — and that single shared region is stored into
every output spec and used to cut every pixel buffer; the pass preserves
the subimage count and the name attributes. -/
theorem C6_multipart_pass (file : ExrFile) (opts : Options)
    (ss : List SpecS) (ps : List PixelBuf) (ns : List String)
    (hplan : plan_multipart opts
        (region_for_rewrap (file.parts.headD default) opts.autocrop) file.parts
      = .ok (ss, ps, ns)) :
    ss.length = file.parts.length ∧
    ns = file.parts.map (fun b => b.spec.name) ∧
    (∀ s ∈ ss, s.roi = region_for_rewrap (file.parts.headD default) opts.autocrop) ∧
    ps = file.parts.map (fun b =>
      { channels := b.spec.channelnames,
        roi := region_for_rewrap (file.parts.headD default) opts.autocrop }) :=
  plan_multipart_ok opts _ file.parts ss ps ns hplan

def b0C6 : ImageBuf := sampleImage ["R"] []

def b1C6 : ImageBuf :=
  { spec :=
      { b0C6.spec with
        roi := { xbegin := 0, xend := 9, ybegin := 0, yend := 9, chbegin := 0, chend := 1 }
        name := "part1" }
    pixel := fun _ _ _ => 0 }

/-- C6 counterexample: the claim predicts that each subimage gets the region
computed at its own native region — with autocrop off, its own data window.
The code instead stores the first subimage window into the second subimage
spec. -/
theorem C6_counterexample :
    (plan_multipart sampleOptions (region_for_rewrap b0C6 false) [b0C6, b1C6]).map
        (fun out => out.1.map SpecS.roi)
      = .ok [b0C6.spec.roi, b0C6.spec.roi] ∧
    region_for_rewrap b1C6 false ≠ b0C6.spec.roi :=
  ⟨rfl, by decide⟩

def fileC6 : ExrFile := ⟨[b0C6, b1C6]⟩

def outC6 : List SpecS × List PixelBuf × List String :=
  ((plan_multipart sampleOptions (region_for_rewrap (fileC6.parts.headD default)
    sampleOptions.autocrop) fileC6.parts).toOption).getD ([], [], [])

theorem C6_witness :
    outC6.1.length = fileC6.parts.length ∧
    outC6.2.2 = fileC6.parts.map (fun b => b.spec.name) := by
  have h := C6_multipart_pass fileC6 sampleOptions outC6.1 outC6.2.1 outC6.2.2
    (by exact rfl)
  exact ⟨h.1, h.2.1⟩

/-- The single-part output path propagates a manifest-removal failure. -/
lemma write_output_manifest_error (w : Writer) (opts : Options) (roi : Region)
    (img : ImageBuf) (hrm : opts.rm_manifest = true)
    (ha : ∃ a ∈ img.spec.extra_attribs,
      strContains a.name "manifest" = true ∧ a.deletable = false) :
    write_output w opts roi img [] [] = .error "Error while removing manifest" := by
  unfold write_output
  rw [if_neg (by simp)]
  rw [show ({ img.spec with roi := roi } : SpecS).extra_attribs
    = img.spec.extra_attribs from rfl] at *
  have herr := update_specs_error opts roi img.spec hrm ha
  rw [herr]
  rfl

/-- The planning stage of `rewrap` for a single-subimage source without a
split request fills no sub specs. -/
lemma rewrap_plan_single_nomulti (file : ExrFile) (opts : Options) (roi : Region)
    (hlen : ¬ file.parts.length > 1) (hmp : opts.multipart = false) :
    rewrap_plan file opts roi = .ok ([], [], roi) := by
  unfold rewrap_plan
  rw [if_neg hlen, if_neg (by simp [hmp])]
  rfl

/-- C9 (amended): when manifest removal hits an attribute type that does not
support deletion, the code raises `RuntimeWarning` (string "Error while
removing manifest"); the exception propagates out of `rewrap` and aborts the
call — it is fatal to that rewrap invocation, not a non-fatal warning; the
surrounding orchestrator catches it and treats the file as failed. -/
theorem C9_manifest_error_aborts (file : ExrFile) (opts : Options) (w : Writer)
    (b : ImageBuf) (hparts : file.parts = [b]) (hmp : opts.multipart = false)
    (hrm : opts.rm_manifest = true)
    (ha : ∃ a ∈ b.spec.extra_attribs,
      strContains a.name "manifest" = true ∧ a.deletable = false) :
    rewrap file opts w = .error "Error while removing manifest" := by
  have hmp2 : (norm_compression opts).multipart = false := by
    unfold norm_compression
    split
    · simpa using hmp
    · exact hmp
  have hrm2 : (norm_compression opts).rm_manifest = true := by
    unfold norm_compression
    split
    · simpa using hrm
    · exact hrm
  have hplan : rewrap_plan file (norm_compression opts)
      (region_for_rewrap (file.parts.headD default) opts.autocrop)
      = .ok ([], [], region_for_rewrap (file.parts.headD default) opts.autocrop) :=
    rewrap_plan_single_nomulti file _ _ (by rw [hparts]; simp) hmp2
  have himg : file.parts.headD default = b := by rw [hparts]; rfl
  calc rewrap file opts w
      = (rewrap_plan file (norm_compression opts)
          (region_for_rewrap (file.parts.headD default) opts.autocrop)) >>= fun x =>
            write_output w (norm_compression opts) x.2.2 (file.parts.headD default)
              x.1 x.2.1 := rfl
    _ = .error "Error while removing manifest" := by
        rw [hplan, exceptOk_bind, himg]
        exact write_output_manifest_error w (norm_compression opts) _ b hrm2 ha

def imgBadManifest : ImageBuf := sampleImage ["R"]
  [{ name := "cryptomatte/abc/manifest", type := "blob", value := "x", deletable := false }]

def optsRm : Options := { sampleOptions with multipart := false, rm_manifest := true }

/-- C9 counterexample: with a manifest attribute whose type does not support
deletion, `rewrap` does not complete its normal control flow; it aborts with
the raised exception, refuting that the failure is not fatal to the rewrap
call. -/
theorem C9_counterexample :
    rewrap ⟨[imgBadManifest]⟩ optsRm wWriteFails = .error "Error while removing manifest" :=
  rfl

def imgBadManifest2 : ImageBuf := sampleImage ["R", "G"]
  [{ name := "oiio:ColorSpace", type := "string", value := "linear", deletable := true },
   { name := "cryptomatte/xy/manifest", type := "blob", value := "y", deletable := false }]

theorem C9_witness :
    rewrap ⟨[imgBadManifest2]⟩ optsRm wTrue = .error "Error while removing manifest" :=
  C9_manifest_error_aborts ⟨[imgBadManifest2]⟩ optsRm wTrue imgBadManifest2 rfl rfl rfl
    ⟨{ name := "cryptomatte/xy/manifest", type := "blob", value := "y", deletable := false },
      by decide, by decide, rfl⟩

end ExrWrapper
